import Mathlib

/-!
Verification of the keiba betting core: the blended expected-value model
(`backend/calculators/expected_value.py`) and the covering ("Dutch") budget
allocator (`backend/calculators/budget_optimizer.py`).

The Python code computes with floats; the embedding uses exact rational
arithmetic (`ℚ`), which is the idealised semantics the spec's invariants are
stated for.  Python dict fields read with `.get(key, 0)` are embedded as plain
fields whose absent value is the default (0 / none / []); this is observation
equivalent because the code only branches on the defaulted value.
-/

namespace Keiba

/-- One historical race outcome (`PastResult`).  `ranking` is `none` for a
did-not-finish entry (Python `r.get("ranking")` returning `None`);
`field_size` is read with default 0; `last_3f = 0` encodes an absent
closing-segment time (the code only uses values `> 0`). -/
structure PastResult where
  ranking : Option ℤ := none
  field_size : ℤ := 0
  last_3f : ℚ := 0
deriving Repr, DecidableEq

/-- One race entrant.  `odds_win` is read by the code via `.get("odds_win", 0)`,
so an absent odds value is embedded as `0`; `gate_number` is read via
`.get("gate_number") or 0`, so both `None` and an absent key collapse to `0`;
`race_history` read via `.get(...) or []` collapses to `[]`. -/
structure Horse where
  horse_id : String := ""
  horse_name : String := ""
  odds_win : ℚ := 0
  gate_number : ℤ := 0
  weight_change : Option ℤ := none
  race_history : List PastResult := []
deriving Repr, DecidableEq

/-- Embeds `_gate_factor` (expected_value.py lines 150-162). -/
def gate_factor (gate : ℤ) : ℚ :=
  if gate ≤ 0 then 1
  else if gate ≤ 3 then 104 / 100
  else if gate ≤ 6 then 1
  else 96 / 100

/-- Embeds `_weight_change_factor` (expected_value.py lines 165-181). -/
def weight_change_factor : Option ℤ → ℚ
  | none => 1
  | some wc =>
    if 2 ≤ wc ∧ wc ≤ 8 then 104 / 100
    else if -2 ≤ wc ∧ wc < 2 then 1
    else if (-6 ≤ wc ∧ wc < -2) ∨ (8 < wc ∧ wc ≤ 12) then 95 / 100
    else 90 / 100

/-- The list `scores` built by `_ranking_factor`: over the first 3 history
records, normalized finish score `(n - rank)/(n - 1)` for records with a
ranking and `field_size > 1`. -/
def ranking_scores (history : List PastResult) : List ℚ :=
  (history.take 3).filterMap fun r =>
    match r.ranking with
    | some rank =>
      if 1 < r.field_size then
        some (((r.field_size : ℚ) - (rank : ℚ)) / ((r.field_size : ℚ) - 1))
      else none
    | none => none

/-- Embeds `_ranking_factor` (expected_value.py lines 184-205). -/
def ranking_factor (history : List PastResult) : ℚ :=
  if ranking_scores history = [] then 1
  else max (80 / 100) (min (120 / 100)
    (1 + ((ranking_scores history).sum / ((ranking_scores history).length : ℚ) - 1 / 2)
      * (40 / 100)))

/-- The `vals` list of `_avg_last_3f`: positive `last_3f` values among the
first 3 history records. -/
def last3f_vals (history : List PastResult) : List ℚ :=
  (history.take 3).filterMap fun r => if 0 < r.last_3f then some r.last_3f else none

/-- Embeds `_avg_last_3f` (expected_value.py lines 208-211): average `last_3f`
over the first 3 history records having a positive value, 0 when none. -/
def avg_last_3f (history : List PastResult) : ℚ :=
  if last3f_vals history = [] then 0
  else (last3f_vals history).sum / ((last3f_vals history).length : ℚ)

/-- Embeds `_last3f_factor` (expected_value.py lines 214-229). -/
def last3f_factor (history : List PastResult) (global_avg : ℚ) : ℚ :=
  if global_avg ≤ 0 then 1
  else if avg_last_3f history ≤ 0 then 1
  else max (88 / 100) (min (112 / 100)
    (1 + (global_avg - avg_last_3f history) * (24 / 1000)))

/-- The blend weight `ALPHA = 0.40` (expected_value.py line 45). -/
def ALPHA : ℚ := 40 / 100

/-- The `valid` sublist of `calculate_expected_values` (line 70): entrants with
`odds_win > 0`. -/
def valid_horses (horses : List Horse) : List Horse :=
  horses.filter fun h => 0 < h.odds_win

/-- The `all_3f_avgs` list (expected_value.py lines 77-80): per-entrant
`last_3f` averages of the valid entrants that have data. -/
def all_3f_avgs (horses : List Horse) : List ℚ :=
  (valid_horses horses).filterMap fun h =>
    if 0 < avg_last_3f h.race_history then some (avg_last_3f h.race_history) else none

/-- Embeds `global_3f_avg` (expected_value.py line 81): field-wide average of
the per-entrant `last_3f` averages, over valid entrants having data. -/
def global_3f_avg (horses : List Horse) : ℚ :=
  if all_3f_avgs horses = [] then 0
  else (all_3f_avgs horses).sum / ((all_3f_avgs horses).length : ℚ)

/-- The `form_score` product (expected_value.py lines 97-102), with the
precomputed global last-3F average `g` as parameter. -/
def form_score (g : ℚ) (h : Horse) : ℚ :=
  gate_factor h.gate_number * weight_change_factor h.weight_change *
    ranking_factor h.race_history * last3f_factor h.race_history g

/-- One element of the `work` list (expected_value.py lines 86-108). -/
structure WorkEntry where
  horse : Horse
  inv_odds : ℚ
  form_score : ℚ
deriving Repr, DecidableEq

/-- The body of the loop building `work` (expected_value.py lines 87-108). -/
def work_entry (g : ℚ) (h : Horse) : WorkEntry :=
  if h.odds_win ≤ 0 then ⟨h, 0, 0⟩
  else ⟨h, 1 / h.odds_win, form_score g h⟩

/-- The full `work` list: the global 3F average is computed once from the valid
entrants, then every input entrant gets a work record. -/
def work_of (horses : List Horse) : List WorkEntry :=
  horses.map (work_entry (global_3f_avg horses))

/-- `total_inv_odds` (expected_value.py line 110). -/
def total_inv_odds (horses : List Horse) : ℚ :=
  ((work_of horses).map (·.inv_odds)).sum

/-- `total_form` (expected_value.py line 111). -/
def total_form (horses : List Horse) : ℚ :=
  ((work_of horses).map (·.form_score)).sum

/-- An output record of `calculate_expected_values`: the input entrant's fields
(`base`) plus `win_probability` and `expected_value`. -/
structure HorseEV where
  horse : Horse
  win_probability : ℚ
  expected_value : ℚ
deriving Repr, DecidableEq

/-- The local `p_market` (expected_value.py line 128). -/
def p_market_of (totalInv : ℚ) (w : WorkEntry) : ℚ := w.inv_odds / totalInv

/-- The local `p_form` (expected_value.py line 133), with the `total_form <= 0`
fallback to `p_market`. -/
def p_form_of (totalInv totalF : ℚ) (w : WorkEntry) : ℚ :=
  if 0 < totalF then w.form_score / totalF else p_market_of totalInv w

/-- The local `p_model` (expected_value.py line 136). -/
def p_model_of (totalInv totalF : ℚ) (w : WorkEntry) : ℚ :=
  ALPHA * p_form_of totalInv totalF w + (1 - ALPHA) * p_market_of totalInv w

/-- The body of the results loop (expected_value.py lines 117-141). -/
def blend_entry (totalInv totalF : ℚ) (w : WorkEntry) : HorseEV :=
  if w.inv_odds ≤ 0 ∨ totalInv ≤ 0 then ⟨w.horse, 0, 0⟩
  else ⟨w.horse, p_model_of totalInv totalF w,
    w.horse.odds_win * p_model_of totalInv totalF w - 1⟩

/-- Embeds `calculate_expected_values` (expected_value.py lines 48-143). -/
def calculate_expected_values (horses : List Horse) : List HorseEV :=
  if horses = [] then []
  else if valid_horses horses = [] then horses.map fun h => ⟨h, 0, 0⟩
  else (work_of horses).map (blend_entry (total_inv_odds horses) (total_form horses))

/-- Python's built-in `round` to nearest integer, halves to even. -/
def pyRound (q : ℚ) : ℤ :=
  if q - ⌊q⌋ < 1 / 2 then ⌊q⌋
  else if 1 / 2 < q - ⌊q⌋ then ⌊q⌋ + 1
  else if ⌊q⌋ % 2 = 0 then ⌊q⌋ else ⌊q⌋ + 1

/-- Python `round(q, 2)`. -/
def pyRound2 (q : ℚ) : ℚ := (pyRound (q * 100) : ℚ) / 100

/-- Python `round(q, 4)`. -/
def pyRound4 (q : ℚ) : ℚ := (pyRound (q * 10000) : ℚ) / 10000

/-- The sort order of budget_optimizer.py line 46: descending win probability. -/
def prob_desc (a b : HorseEV) : Prop := b.win_probability ≤ a.win_probability

instance : DecidableRel prob_desc :=
  fun a b => inferInstanceAs (Decidable (b.win_probability ≤ a.win_probability))

instance : IsTotal HorseEV prob_desc :=
  ⟨fun a b => le_total b.win_probability a.win_probability⟩

instance : IsTrans HorseEV prob_desc :=
  ⟨fun _ _ _ hab hbc => le_trans hbc hab⟩

/-- Embeds `valid.sort(key=..., reverse=True)` (budget_optimizer.py line 46).
Python's sort is stable and `reverse=True` keeps ties in original order, so the
result is the unique descending stable reordering; insertion sort with
`prob_desc` produces exactly that list. -/
def sort_by_prob (l : List HorseEV) : List HorseEV := List.insertionSort prob_desc l

/-- The `valid` list of `optimize_budget` (budget_optimizer.py line 41):
entrants whose odds exceed 1.0, with their computed probabilities. -/
def valid_for (horses : List Horse) : List HorseEV :=
  (calculate_expected_values horses).filter fun h => 1 < h.horse.odds_win

/-- The sorted `valid` list (after budget_optimizer.py line 46). -/
def sorted_for (horses : List Horse) : List HorseEV := sort_by_prob (valid_for horses)

/-- The selection loop (budget_optimizer.py lines 51-59), carried state
`(selected, inv_sum)`; the loop locals are `margin = (len(selected)+1)*100 /
budget` and `inv = 1/odds_win`. -/
def select_go (budget : ℤ) : List HorseEV → List HorseEV × ℚ → List HorseEV × ℚ
  | [], acc => acc
  | h :: rest, (sel, inv_sum) =>
    if inv_sum + 1 / h.horse.odds_win + ((sel.length : ℚ) + 1) * 100 / (budget : ℚ) ≤ 1 then
      select_go budget rest (sel ++ [h], inv_sum + 1 / h.horse.odds_win)
    else
      select_go budget rest (sel, inv_sum)

/-- The state of the selection loop after the scan over the sorted list. -/
def scan_for (horses : List Horse) (budget : ℤ) : List HorseEV × ℚ :=
  select_go budget (sorted_for horses) ([], 0)

/-- The final `selected` list (budget_optimizer.py lines 51-63): the scan's
output, or the first (highest-probability) entrant when the scan admitted
nobody.  `valid[0]` after the in-place sort is the head of the sorted list. -/
def selected_for (horses : List Horse) (budget : ℤ) : List HorseEV :=
  if (scan_for horses budget).1 = [] then (sorted_for horses).take 1
  else (scan_for horses budget).1

/-- One element of the output `bets` list (budget_optimizer.py lines 78-86). -/
structure Bet where
  horse_id : String
  horse_name : String
  recommended_bet : ℤ
  if_wins_return : ℤ
  expected_return : ℚ
  odds_win : ℚ
  win_probability : ℚ
deriving Repr, DecidableEq

/-- The stake for one selected entrant (budget_optimizer.py line 72):
`max(100, ceil(budget / odds / 100) × 100)`. -/
def bet_amount (budget : ℤ) (odds : ℚ) : ℤ :=
  max 100 (⌈(budget : ℚ) / odds / 100⌉ * 100)

/-- The body of the staking loop (budget_optimizer.py lines 68-86). -/
def mk_bet (budget : ℤ) (h : HorseEV) : Bet :=
  { horse_id := h.horse.horse_id
    horse_name := h.horse.horse_name
    recommended_bet := bet_amount budget h.horse.odds_win
    if_wins_return := pyRound ((bet_amount budget h.horse.odds_win : ℚ) * h.horse.odds_win)
    expected_return := pyRound2 ((bet_amount budget h.horse.odds_win : ℚ) * h.horse.odds_win
      * h.win_probability)
    odds_win := h.horse.odds_win
    win_probability := pyRound4 h.win_probability }

/-- The result record of `optimize_budget`. -/
structure AllocationResult where
  bets : List Bet
  total_bet : ℤ
  guaranteed_return : ℤ
  remaining_budget : ℤ
  coverage : ℚ
deriving Repr, DecidableEq

/-- Python `min(...)` over a list of integers (0 on the empty list, matching
the `if bets else 0` guard at budget_optimizer.py line 92). -/
def min_list : List ℤ → ℤ
  | [] => 0
  | x :: xs => xs.foldl min x

/-- The output `bets` list (budget_optimizer.py lines 66-86). -/
def bets_for (horses : List Horse) (budget : ℤ) : List Bet :=
  (selected_for horses budget).map (mk_bet budget)

/-- The accumulated `total_bet` (budget_optimizer.py lines 67, 73). -/
def total_bet_for (horses : List Horse) (budget : ℤ) : ℤ :=
  ((bets_for horses budget).map (·.recommended_bet)).sum

/-- `coverage` (budget_optimizer.py lines 94-98): `1 − Π max(0, 1 − p)` over
the selected entrants, rounded to 4 decimals. -/
def coverage_for (horses : List Horse) (budget : ℤ) : ℚ :=
  pyRound4 (1 - ((selected_for horses budget).map fun h => max 0 (1 - h.win_probability)).prod)

/-- Embeds `optimize_budget` (budget_optimizer.py lines 21-106). -/
def optimize_budget (horses : List Horse) (budget : ℤ) : AllocationResult :=
  if horses = [] ∨ budget ≤ 0 then ⟨[], 0, 0, budget, 0⟩
  else if valid_for horses = [] then ⟨[], 0, 0, budget, 0⟩
  else
    ⟨bets_for horses budget,
      total_bet_for horses budget,
      min_list ((bets_for horses budget).map (·.if_wins_return)),
      max 0 (budget - total_bet_for horses budget),
      coverage_for horses budget⟩

/-- The end-to-end scenario field from spec §8: three entrants with odds
2.0, 3.0, 4.0 and no gate/weight/history data.  Used as the concrete input of
the witness theorems. -/
def demoHorses : List Horse :=
  [{ horse_id := "a", odds_win := 2 }, { horse_id := "b", odds_win := 3 },
   { horse_id := "c", odds_win := 4 }]

/-! ### Bounds on the form-score factors -/

lemma gate_factor_cases (g : ℤ) :
    gate_factor g = 96 / 100 ∨ gate_factor g = 1 ∨ gate_factor g = 104 / 100 := by
  unfold gate_factor; split_ifs <;> simp

lemma gate_factor_lb (g : ℤ) : (96 / 100 : ℚ) ≤ gate_factor g := by
  rcases gate_factor_cases g with h | h | h <;> rw [h] <;> norm_num

lemma weight_change_factor_cases (wc : Option ℤ) :
    weight_change_factor wc = 90 / 100 ∨ weight_change_factor wc = 95 / 100 ∨
      weight_change_factor wc = 1 ∨ weight_change_factor wc = 104 / 100 := by
  cases wc with
  | none => simp [weight_change_factor]
  | some w => simp only [weight_change_factor]; split_ifs <;> simp

lemma weight_change_factor_lb (wc : Option ℤ) : (90 / 100 : ℚ) ≤ weight_change_factor wc := by
  rcases weight_change_factor_cases wc with h | h | h | h <;> rw [h] <;> norm_num

lemma ranking_factor_bounds (history : List PastResult) :
    (80 / 100 : ℚ) ≤ ranking_factor history ∧ ranking_factor history ≤ 120 / 100 := by
  unfold ranking_factor
  split_ifs with h
  · constructor <;> norm_num
  · exact ⟨le_max_left _ _, max_le (by norm_num) (min_le_left _ _)⟩

lemma last3f_factor_bounds (history : List PastResult) (g : ℚ) :
    (88 / 100 : ℚ) ≤ last3f_factor history g ∧ last3f_factor history g ≤ 112 / 100 := by
  unfold last3f_factor
  split_ifs with h1 h2
  · constructor <;> norm_num
  · constructor <;> norm_num
  · exact ⟨le_max_left _ _, max_le (by norm_num) (min_le_left _ _)⟩

lemma form_score_lb (g : ℚ) (h : Horse) :
    (96 / 100 : ℚ) * (90 / 100) * (80 / 100) * (88 / 100) ≤ form_score g h := by
  have h1 := gate_factor_lb h.gate_number
  have h2 := weight_change_factor_lb h.weight_change
  have h3 := (ranking_factor_bounds h.race_history).1
  have h4 := (last3f_factor_bounds h.race_history g).1
  have n1 : (0 : ℚ) ≤ gate_factor h.gate_number := le_trans (by norm_num) h1
  have n2 : (0 : ℚ) ≤ gate_factor h.gate_number * weight_change_factor h.weight_change :=
    mul_nonneg n1 (le_trans (by norm_num) h2)
  have n3 : (0 : ℚ) ≤ gate_factor h.gate_number * weight_change_factor h.weight_change *
      ranking_factor h.race_history := mul_nonneg n2 (le_trans (by norm_num) h3)
  have s1 : (96 / 100 : ℚ) * (90 / 100) ≤
      gate_factor h.gate_number * weight_change_factor h.weight_change :=
    mul_le_mul h1 h2 (by norm_num) n1
  have s2 : (96 / 100 : ℚ) * (90 / 100) * (80 / 100) ≤
      gate_factor h.gate_number * weight_change_factor h.weight_change *
        ranking_factor h.race_history :=
    mul_le_mul s1 h3 (by norm_num) n2
  exact mul_le_mul s2 h4 (by norm_num) n3

lemma form_score_pos (g : ℚ) (h : Horse) : 0 < form_score g h :=
  lt_of_lt_of_le (by norm_num) (form_score_lb g h)

/-! ### The work list -/

lemma work_entry_horse (g : ℚ) (h : Horse) : (work_entry g h).horse = h := by
  unfold work_entry; split_ifs <;> rfl

lemma work_entry_valid (g : ℚ) (h : Horse) (hv : 0 < h.odds_win) :
    work_entry g h = ⟨h, 1 / h.odds_win, form_score g h⟩ := by
  unfold work_entry; rw [if_neg (not_le.mpr hv)]

lemma work_entry_invalid (g : ℚ) (h : Horse) (hv : h.odds_win ≤ 0) :
    work_entry g h = ⟨h, 0, 0⟩ := by
  unfold work_entry; rw [if_pos hv]

lemma work_of_inv_nonneg (horses : List Horse) :
    ∀ w ∈ work_of horses, 0 ≤ w.inv_odds := by
  intro w hw
  obtain ⟨h, _, rfl⟩ := List.mem_map.mp hw
  by_cases hv : 0 < h.odds_win
  · rw [work_entry_valid _ _ hv]
    exact le_of_lt (by positivity)
  · rw [work_entry_invalid _ _ (not_lt.mp hv)]

lemma work_of_form_nonneg (horses : List Horse) :
    ∀ w ∈ work_of horses, 0 ≤ w.form_score := by
  intro w hw
  obtain ⟨h, _, rfl⟩ := List.mem_map.mp hw
  by_cases hv : 0 < h.odds_win
  · rw [work_entry_valid _ _ hv]
    exact le_of_lt (form_score_pos _ _)
  · rw [work_entry_invalid _ _ (not_lt.mp hv)]

lemma total_inv_odds_pos (horses : List Horse) (hex : ∃ h ∈ horses, 0 < h.odds_win) :
    0 < total_inv_odds horses := by
  obtain ⟨h, hmem, hpos⟩ := hex
  have hw : work_entry (global_3f_avg horses) h ∈ work_of horses :=
    List.mem_map_of_mem _ hmem
  have hv : (work_entry (global_3f_avg horses) h).inv_odds = 1 / h.odds_win := by
    rw [work_entry_valid _ _ hpos]
  have hmem2 : (work_entry (global_3f_avg horses) h).inv_odds ∈
      (work_of horses).map (·.inv_odds) := List.mem_map_of_mem _ hw
  have hnn : ∀ x ∈ (work_of horses).map (·.inv_odds), (0 : ℚ) ≤ x := by
    intro x hx
    obtain ⟨w, hw', rfl⟩ := List.mem_map.mp hx
    exact work_of_inv_nonneg horses w hw'
  have := List.single_le_sum hnn _ hmem2
  refine lt_of_lt_of_le ?_ this
  rw [hv]; positivity

lemma total_form_pos (horses : List Horse) (hex : ∃ h ∈ horses, 0 < h.odds_win) :
    0 < total_form horses := by
  obtain ⟨h, hmem, hpos⟩ := hex
  have hw : work_entry (global_3f_avg horses) h ∈ work_of horses :=
    List.mem_map_of_mem _ hmem
  have hv : (work_entry (global_3f_avg horses) h).form_score =
      form_score (global_3f_avg horses) h := by
    rw [work_entry_valid _ _ hpos]
  have hmem2 : (work_entry (global_3f_avg horses) h).form_score ∈
      (work_of horses).map (·.form_score) := List.mem_map_of_mem _ hw
  have hnn : ∀ x ∈ (work_of horses).map (·.form_score), (0 : ℚ) ≤ x := by
    intro x hx
    obtain ⟨w, hw', rfl⟩ := List.mem_map.mp hx
    exact work_of_form_nonneg horses w hw'
  have := List.single_le_sum hnn _ hmem2
  refine lt_of_lt_of_le ?_ this
  rw [hv]; exact form_score_pos _ _

/-- C10: for every entrant the four form factors are drawn from their stated
positive bounded ranges, the form score is at least
`0.96 × 0.90 × 0.80 × 0.88 > 0`, and with at least one valid entrant the total
form score is strictly positive, so the `total_form <= 0` fallback branch of
`calculate_expected_values` is unreachable. -/
theorem form_score_factors_bounded_and_total_form_pos
    (horses : List Horse) (h : Horse) (g : ℚ) :
    (gate_factor h.gate_number = 96 / 100 ∨ gate_factor h.gate_number = 1 ∨
      gate_factor h.gate_number = 104 / 100) ∧
    (weight_change_factor h.weight_change = 90 / 100 ∨
      weight_change_factor h.weight_change = 95 / 100 ∨
      weight_change_factor h.weight_change = 1 ∨
      weight_change_factor h.weight_change = 104 / 100) ∧
    (80 / 100 : ℚ) ≤ ranking_factor h.race_history ∧
      ranking_factor h.race_history ≤ 120 / 100 ∧
    (88 / 100 : ℚ) ≤ last3f_factor h.race_history g ∧
      last3f_factor h.race_history g ≤ 112 / 100 ∧
    (96 / 100 : ℚ) * (90 / 100) * (80 / 100) * (88 / 100) ≤ form_score g h ∧
    0 < form_score g h ∧
    ((∃ h0 ∈ horses, 0 < h0.odds_win) → 0 < total_form horses) :=
  ⟨gate_factor_cases _, weight_change_factor_cases _,
    (ranking_factor_bounds _).1, (ranking_factor_bounds _).2,
    (last3f_factor_bounds _ _).1, (last3f_factor_bounds _ _).2,
    form_score_lb _ _, form_score_pos _ _, total_form_pos horses⟩

/-- Witness for C10 at a concrete field (the spec §8 demo entrants). -/
theorem form_score_factors_bounded_and_total_form_pos_witness :
    (∃ h0 ∈ [({ horse_id := "a", odds_win := 2 } : Horse)], 0 < h0.odds_win) ∧
      0 < total_form [({ horse_id := "a", odds_win := 2 } : Horse)] := by
  have hx : ∃ h0 ∈ [({ horse_id := "a", odds_win := 2 } : Horse)], 0 < h0.odds_win := by
    refine ⟨_, List.mem_singleton_self _, by norm_num⟩
  exact ⟨hx, (form_score_factors_bounded_and_total_form_pos
    [{ horse_id := "a", odds_win := 2 }] { horse_id := "a", odds_win := 2 } 0).2.2.2.2.2.2.2.2 hx⟩

/-! ### Structure of `calculate_expected_values` -/

lemma blend_entry_horse (V F : ℚ) (w : WorkEntry) : (blend_entry V F w).horse = w.horse := by
  unfold blend_entry; split_ifs <;> rfl

lemma blend_entry_invalid (V F : ℚ) (w : WorkEntry) (h : w.inv_odds ≤ 0 ∨ V ≤ 0) :
    blend_entry V F w = ⟨w.horse, 0, 0⟩ := by
  unfold blend_entry; rw [if_pos h]

lemma blend_entry_valid (V F : ℚ) (w : WorkEntry) (hI : 0 < w.inv_odds) (hV : 0 < V) :
    blend_entry V F w = ⟨w.horse, p_model_of V F w,
      w.horse.odds_win * p_model_of V F w - 1⟩ := by
  unfold blend_entry
  rw [if_neg (by push_neg; exact ⟨hI, hV⟩)]

lemma p_model_of_eq (V F : ℚ) (w : WorkEntry) (hF : 0 < F) :
    p_model_of V F w = ALPHA * (w.form_score / F) + (1 - ALPHA) * (w.inv_odds / V) := by
  unfold p_model_of p_form_of p_market_of
  rw [if_pos hF]

lemma work_of_dichotomy (horses : List Horse) :
    ∀ w ∈ work_of horses, (0 < w.horse.odds_win ∧ 0 < w.inv_odds) ∨
      (¬ 0 < w.horse.odds_win ∧ w.inv_odds = 0 ∧ w.form_score = 0) := by
  intro w hw
  obtain ⟨h, _, rfl⟩ := List.mem_map.mp hw
  by_cases hv : 0 < h.odds_win
  · left
    rw [work_entry_valid _ _ hv]
    exact ⟨hv, by positivity⟩
  · right
    rw [work_entry_invalid _ _ (not_lt.mp hv)]
    exact ⟨hv, rfl, rfl⟩

lemma blend_sum (V F : ℚ) (hV : 0 < V) (hF : 0 < F) (ws : List WorkEntry)
    (hyp : ∀ w ∈ ws, (0 < w.horse.odds_win ∧ 0 < w.inv_odds) ∨
      (¬ 0 < w.horse.odds_win ∧ w.inv_odds = 0 ∧ w.form_score = 0)) :
    (((ws.map (blend_entry V F)).filter fun o => 0 < o.horse.odds_win).map
      (·.win_probability)).sum =
      ALPHA / F * ((ws.map (·.form_score)).sum)
        + (1 - ALPHA) / V * ((ws.map (·.inv_odds)).sum) := by
  induction ws with
  | nil => simp
  | cons w ws ih =>
    have hw := hyp w (List.mem_cons_self _ _)
    have ih' := ih fun x hx => hyp x (List.mem_cons_of_mem _ hx)
    rcases hw with ⟨hodds, hinv⟩ | ⟨hodds, hinv, hform⟩
    · rw [List.map_cons, List.filter_cons,
        if_pos (show decide (0 < (blend_entry V F w).horse.odds_win) = true by
          rw [blend_entry_horse]; exact decide_eq_true hodds),
        List.map_cons, List.sum_cons, List.map_cons, List.sum_cons,
        List.map_cons, List.sum_cons, ih']
      rw [blend_entry_valid V F w hinv hV]
      show p_model_of V F w + _ = _
      rw [p_model_of_eq V F w hF]
      ring
    · rw [List.map_cons, List.filter_cons,
        if_neg (show ¬ decide (0 < (blend_entry V F w).horse.odds_win) = true by
          rw [blend_entry_horse]; simpa using hodds),
        List.map_cons, List.sum_cons, List.map_cons, List.sum_cons, ih', hinv, hform]
      ring

/-- C2: with at least one valid entrant, the win probabilities assigned to the
valid entrants sum to exactly 1 in rational arithmetic. -/
theorem win_probability_sums_to_one (horses : List Horse)
    (hex : ∃ h ∈ horses, 0 < h.odds_win) :
    (((calculate_expected_values horses).filter fun o => 0 < o.horse.odds_win).map
      (·.win_probability)).sum = 1 := by
  have hV := total_inv_odds_pos horses hex
  have hF := total_form_pos horses hex
  obtain ⟨h0, hm0, hp0⟩ := hex
  have hne : horses ≠ [] := List.ne_nil_of_mem hm0
  have hvne : valid_horses horses ≠ [] :=
    List.ne_nil_of_mem (List.mem_filter.mpr ⟨hm0, decide_eq_true hp0⟩)
  unfold calculate_expected_values
  rw [if_neg hne, if_neg hvne,
    blend_sum _ _ hV hF _ (work_of_dichotomy horses)]
  show ALPHA / total_form horses * total_form horses
    + (1 - ALPHA) / total_inv_odds horses * total_inv_odds horses = 1
  rw [div_mul_cancel₀ _ (ne_of_gt hF), div_mul_cancel₀ _ (ne_of_gt hV)]
  ring

/-- Witness for C2 at the spec §8 demo field. -/
theorem win_probability_sums_to_one_witness :
    (∃ h ∈ demoHorses, 0 < h.odds_win) ∧
    (((calculate_expected_values demoHorses).filter
        fun o => 0 < o.horse.odds_win).map (·.win_probability)).sum = 1 :=
  ⟨by with_unfolding_all decide,
    win_probability_sums_to_one demoHorses (by with_unfolding_all decide)⟩

/-! ### Shape lemmas for `calculate_expected_values` -/

lemma cev_length (horses : List Horse) :
    (calculate_expected_values horses).length = horses.length := by
  unfold calculate_expected_values
  split_ifs with h1 h2
  · rw [h1]; rfl
  · simp
  · simp [work_of]

lemma inv_sum_aux (g : ℚ) (hs : List Horse) :
    ((hs.map (work_entry g)).map (·.inv_odds)).sum
      = ((hs.filter fun h => 0 < h.odds_win).map fun h => 1 / h.odds_win).sum := by
  induction hs with
  | nil => simp
  | cons h t ih =>
    by_cases hv : 0 < h.odds_win
    · rw [List.map_cons, List.map_cons, List.sum_cons, work_entry_valid g h hv,
        List.filter_cons, if_pos (decide_eq_true hv), List.map_cons, List.sum_cons, ih]
    · rw [List.map_cons, List.map_cons, List.sum_cons, work_entry_invalid g h (not_lt.mp hv),
        List.filter_cons, if_neg (by simpa using hv), ih]
      show (0 : ℚ) + _ = _
      rw [zero_add]

lemma form_sum_aux (g : ℚ) (hs : List Horse) :
    ((hs.map (work_entry g)).map (·.form_score)).sum
      = ((hs.filter fun h => 0 < h.odds_win).map (form_score g)).sum := by
  induction hs with
  | nil => simp
  | cons h t ih =>
    by_cases hv : 0 < h.odds_win
    · rw [List.map_cons, List.map_cons, List.sum_cons, work_entry_valid g h hv,
        List.filter_cons, if_pos (decide_eq_true hv), List.map_cons, List.sum_cons, ih]
    · rw [List.map_cons, List.map_cons, List.sum_cons, work_entry_invalid g h (not_lt.mp hv),
        List.filter_cons, if_neg (by simpa using hv), ih]
      show (0 : ℚ) + _ = _
      rw [zero_add]

lemma total_inv_odds_eq_valid_sum (horses : List Horse) :
    total_inv_odds horses = ((valid_horses horses).map fun h => 1 / h.odds_win).sum :=
  inv_sum_aux (global_3f_avg horses) horses

lemma total_form_eq_valid_sum (horses : List Horse) :
    total_form horses
      = ((valid_horses horses).map (form_score (global_3f_avg horses))).sum :=
  form_sum_aux (global_3f_avg horses) horses

lemma cev_getElem? (horses : List Horse) (i : ℕ) (h : Horse)
    (hh : horses[i]? = some h) :
    (calculate_expected_values horses)[i]? =
      some (if valid_horses horses = [] then ⟨h, 0, 0⟩
        else blend_entry (total_inv_odds horses) (total_form horses)
          (work_entry (global_3f_avg horses) h)) := by
  have hne : horses ≠ [] := by
    intro hempty
    rw [hempty] at hh
    simp at hh
  unfold calculate_expected_values
  rw [if_neg hne]
  by_cases h2 : valid_horses horses = []
  · rw [if_pos h2, if_pos h2, List.getElem?_map, hh, Option.map_some']
  · rw [if_neg h2, if_neg h2]
    unfold work_of
    rw [List.getElem?_map, List.getElem?_map, hh, Option.map_some', Option.map_some']

lemma cev_horse_mem (horses : List Horse) :
    ∀ o ∈ calculate_expected_values horses, o.horse ∈ horses := by
  intro o ho
  unfold calculate_expected_values at ho
  split_ifs at ho with h1 h2
  · simp at ho
  · obtain ⟨h, hm, rfl⟩ := List.mem_map.mp ho
    exact hm
  · obtain ⟨w, hw, rfl⟩ := List.mem_map.mp ho
    rw [blend_entry_horse]
    obtain ⟨h, hm, rfl⟩ := List.mem_map.mp hw
    rw [work_entry_horse]
    exact hm

/-- C8: `calculate_expected_values` preserves length and order (one output
record per input entrant), zeroes the derived fields of every ineligible
entrant (absent `odds_win` is embedded as 0), and the two normalization sums
range over the valid entrants only. -/
theorem cev_shape_and_invalid_zeroed (horses : List Horse) :
    (calculate_expected_values horses).length = horses.length ∧
    (∀ (i : ℕ) (h : Horse), horses[i]? = some h →
      ∃ o : HorseEV, (calculate_expected_values horses)[i]? = some o ∧ o.horse = h ∧
        (h.odds_win ≤ 0 → o.win_probability = 0 ∧ o.expected_value = 0)) ∧
    total_inv_odds horses = ((valid_horses horses).map fun h => 1 / h.odds_win).sum ∧
    total_form horses
      = ((valid_horses horses).map (form_score (global_3f_avg horses))).sum := by
  refine ⟨cev_length horses, ?_, total_inv_odds_eq_valid_sum horses,
    total_form_eq_valid_sum horses⟩
  intro i h hh
  refine ⟨_, cev_getElem? horses i h hh, ?_, ?_⟩
  · by_cases h2 : valid_horses horses = []
    · rw [if_pos h2]
    · rw [if_neg h2, blend_entry_horse, work_entry_horse]
  · intro hbad
    by_cases h2 : valid_horses horses = []
    · rw [if_pos h2]
      exact ⟨rfl, rfl⟩
    · rw [if_neg h2, blend_entry_invalid]
      · exact ⟨rfl, rfl⟩
      · rw [work_entry_invalid _ _ hbad]
        exact Or.inl le_rfl

/-- Witness for C8 at a field with one valid and one invalid entrant. -/
theorem cev_shape_and_invalid_zeroed_witness :
    [({ horse_id := "a", odds_win := 2 } : Horse), { horse_id := "z" }][1]? =
        some ({ horse_id := "z" } : Horse) ∧
    ∃ o : HorseEV, (calculate_expected_values
        [({ horse_id := "a", odds_win := 2 } : Horse), { horse_id := "z" }])[1]? = some o ∧
      o.horse = ({ horse_id := "z" } : Horse) ∧
      (({ horse_id := "z" } : Horse).odds_win ≤ 0 →
        o.win_probability = 0 ∧ o.expected_value = 0) :=
  ⟨by with_unfolding_all decide,
    (cev_shape_and_invalid_zeroed
      [{ horse_id := "a", odds_win := 2 }, { horse_id := "z" }]).2.1 1
      { horse_id := "z" } (by with_unfolding_all decide)⟩

/-- Stated from the claim's words (C3): the blended probability of a valid
entrant is `0.40 × p_form + 0.60 × p_market`, where
`p_market = (1/odds_win) / Σ_valid (1/odds_win)` and
`p_form = form_score / Σ_valid form_score`. -/
def claim_blend_probability (horses : List Horse) (h : Horse) : ℚ :=
  (40 / 100) * (form_score (global_3f_avg horses) h
      / ((valid_horses horses).map (form_score (global_3f_avg horses))).sum)
    + (60 / 100) * ((1 / h.odds_win)
      / ((valid_horses horses).map fun x => 1 / x.odds_win).sum)

/-- C3: every valid entrant's win probability is the 0.40/0.60 blend of its
normalized form score and its normalized inverse odds, both normalized over
the valid entrants, and its expected value is `odds_win × win_probability − 1`. -/
theorem valid_entrant_blend_formula (horses : List Horse) (i : ℕ) (h : Horse)
    (hh : horses[i]? = some h) (hv : 0 < h.odds_win) :
    (calculate_expected_values horses)[i]? =
      some (⟨h, claim_blend_probability horses h,
        h.odds_win * claim_blend_probability horses h - 1⟩ : HorseEV) := by
  have hmem : h ∈ horses := by
    obtain ⟨hlt, hget⟩ := List.getElem?_eq_some_iff.mp hh
    exact hget ▸ List.getElem_mem hlt
  have hex : ∃ h0 ∈ horses, 0 < h0.odds_win := ⟨h, hmem, hv⟩
  have hV := total_inv_odds_pos horses hex
  have hF := total_form_pos horses hex
  have hvne : valid_horses horses ≠ [] :=
    List.ne_nil_of_mem (List.mem_filter.mpr ⟨hmem, decide_eq_true hv⟩)
  rw [cev_getElem? horses i h hh, if_neg hvne]
  rw [work_entry_valid _ _ hv,
    blend_entry_valid _ _ _ (by positivity) hV, p_model_of_eq _ _ _ hF]
  show some (⟨h, _, _⟩ : HorseEV) = some (⟨h, _, _⟩ : HorseEV)
  unfold claim_blend_probability
  rw [← total_form_eq_valid_sum, ← total_inv_odds_eq_valid_sum]
  norm_num [ALPHA]

/-- Witness for C3 at the spec §8 demo field, first entrant. -/
theorem valid_entrant_blend_formula_witness :
    demoHorses[0]? = some ({ horse_id := "a", odds_win := 2 } : Horse) ∧
    (calculate_expected_values demoHorses)[0]? =
      some (⟨{ horse_id := "a", odds_win := 2 },
        claim_blend_probability demoHorses { horse_id := "a", odds_win := 2 },
        ({ horse_id := "a", odds_win := 2 } : Horse).odds_win *
          claim_blend_probability demoHorses { horse_id := "a", odds_win := 2 } - 1⟩ :
            HorseEV) :=
  ⟨by with_unfolding_all decide,
    valid_entrant_blend_formula demoHorses 0 _ (by with_unfolding_all decide)
      (by with_unfolding_all decide)⟩

/-- C7: `optimize_budget` is a total function (the embedding is defined for
every input), and every degenerate input — empty entrant list, non-positive
budget, or no entrant with `odds_win > 1` — yields exactly the canonical zero
result `{bets = [], total_bet = 0, guaranteed_return = 0,
remaining_budget = budget, coverage = 0}`. -/
theorem optimize_budget_degenerate_zero (horses : List Horse) (budget : ℤ)
    (hdeg : horses = [] ∨ budget ≤ 0 ∨ ∀ h ∈ horses, h.odds_win ≤ 1) :
    optimize_budget horses budget = ⟨[], 0, 0, budget, 0⟩ := by
  unfold optimize_budget
  by_cases hd : horses = [] ∨ budget ≤ 0
  · rw [if_pos hd]
  · rw [if_neg hd, if_pos]
    rcases hdeg with h | h | h
    · exact absurd (Or.inl h) hd
    · exact absurd (Or.inr h) hd
    · unfold valid_for
      rw [List.filter_eq_nil_iff]
      intro o ho
      simpa using not_lt.mpr (h o.horse (cev_horse_mem horses o ho))

/-- Witness for C7 on an all-ineligible field with positive budget. -/
theorem optimize_budget_degenerate_zero_witness :
    (([({ horse_id := "y", odds_win := 1 } : Horse)] : List Horse) = [] ∨ (500 : ℤ) ≤ 0 ∨
      ∀ h ∈ [({ horse_id := "y", odds_win := 1 } : Horse)], h.odds_win ≤ 1) ∧
    optimize_budget [({ horse_id := "y", odds_win := 1 } : Horse)] 500 =
      ⟨[], 0, 0, 500, 0⟩ := by
  have hd : ([({ horse_id := "y", odds_win := 1 } : Horse)] : List Horse) = [] ∨
      (500 : ℤ) ≤ 0 ∨ ∀ h ∈ [({ horse_id := "y", odds_win := 1 } : Horse)], h.odds_win ≤ 1 := by
    right; right
    intro h hm
    rw [List.mem_singleton.mp hm]
  exact ⟨hd, optimize_budget_degenerate_zero _ _ hd⟩

/-! ### Covering-allocator lemmas -/

/-- The running sum of inverse odds over a selection. -/
def inv_sum_of (l : List HorseEV) : ℚ := (l.map fun h => 1 / h.horse.odds_win).sum

lemma inv_sum_of_append (l : List HorseEV) (h : HorseEV) :
    inv_sum_of (l ++ [h]) = inv_sum_of l + 1 / h.horse.odds_win := by
  unfold inv_sum_of
  rw [List.map_append, List.sum_append]
  simp

lemma select_go_spec (budget : ℤ) (l : List HorseEV) :
    ∀ sel inv_sum, inv_sum = inv_sum_of sel →
      (sel ≠ [] → inv_sum_of sel + (sel.length : ℚ) * 100 / (budget : ℚ) ≤ 1) →
      ((select_go budget l (sel, inv_sum)).1 ≠ [] →
        inv_sum_of (select_go budget l (sel, inv_sum)).1
          + ((select_go budget l (sel, inv_sum)).1.length : ℚ) * 100 / (budget : ℚ) ≤ 1) ∧
      (∀ h ∈ (select_go budget l (sel, inv_sum)).1, h ∈ sel ∨ h ∈ l) := by
  induction l with
  | nil =>
    intro sel inv_sum _ hinv
    simp only [select_go]
    exact ⟨hinv, fun h hm => Or.inl hm⟩
  | cons c rest ih =>
    intro sel inv_sum heq hinv
    simp only [select_go]
    by_cases hc : inv_sum + 1 / c.horse.odds_win
        + ((sel.length : ℚ) + 1) * 100 / (budget : ℚ) ≤ 1
    · rw [if_pos hc]
      have heq' : inv_sum + 1 / c.horse.odds_win = inv_sum_of (sel ++ [c]) := by
        rw [inv_sum_of_append, heq]
      have hinv' : sel ++ [c] ≠ [] →
          inv_sum_of (sel ++ [c]) + (((sel ++ [c]).length : ℚ)) * 100 / (budget : ℚ) ≤ 1 := by
        intro _
        rw [← heq']
        have hlen : (((sel ++ [c]).length : ℕ) : ℚ) = (sel.length : ℚ) + 1 := by
          rw [List.length_append]
          push_cast
          norm_num
        rw [hlen]
        exact hc
      obtain ⟨h1, h2⟩ := ih (sel ++ [c]) _ heq' hinv'
      refine ⟨h1, fun h hm => ?_⟩
      rcases h2 h hm with hs | hr
      · rcases List.mem_append.mp hs with hs' | hs'
        · exact Or.inl hs'
        · exact Or.inr (by rw [List.mem_singleton.mp hs']; exact List.mem_cons_self c rest)
      · exact Or.inr (List.mem_cons_of_mem _ hr)
    · rw [if_neg hc]
      obtain ⟨h1, h2⟩ := ih sel inv_sum heq hinv
      refine ⟨h1, fun h hm => ?_⟩
      rcases h2 h hm with hs | hr
      · exact Or.inl hs
      · exact Or.inr (List.mem_cons_of_mem _ hr)

lemma scan_invariant (horses : List Horse) (budget : ℤ) :
    ((scan_for horses budget).1 ≠ [] →
      inv_sum_of (scan_for horses budget).1
        + ((scan_for horses budget).1.length : ℚ) * 100 / (budget : ℚ) ≤ 1) ∧
    (∀ h ∈ (scan_for horses budget).1, h ∈ sorted_for horses) := by
  have hspec := select_go_spec budget (sorted_for horses) [] 0
    (by simp [inv_sum_of]) (fun hcon => absurd rfl hcon)
  exact ⟨hspec.1, fun h hm => (hspec.2 h hm).resolve_left (by simp)⟩

lemma bet_amount_ge_100 (budget : ℤ) (odds : ℚ) : 100 ≤ bet_amount budget odds :=
  le_max_left _ _

lemma bet_amount_eq_ceil (budget : ℤ) (odds : ℚ) (hb : 0 < budget) (ho : 0 < odds) :
    bet_amount budget odds = ⌈(budget : ℚ) / odds / 100⌉ * 100 := by
  unfold bet_amount
  have hx : (0 : ℚ) < (budget : ℚ) / odds / 100 := by
    have : (0 : ℚ) < (budget : ℚ) := by exact_mod_cast hb
    positivity
  have h1 : 1 ≤ ⌈(budget : ℚ) / odds / 100⌉ := Int.ceil_pos.mpr hx
  exact max_eq_right (by omega)

lemma bet_amount_mul_ge (budget : ℤ) (odds : ℚ) (ho : 0 < odds) :
    (budget : ℚ) ≤ (bet_amount budget odds : ℚ) * odds := by
  have h1 : (budget : ℚ) / odds ≤ (bet_amount budget odds : ℚ) := by
    unfold bet_amount
    push_cast
    refine le_trans ?_ (le_max_right _ _)
    have hceil := Int.le_ceil ((budget : ℚ) / odds / 100)
    calc (budget : ℚ) / odds = ((budget : ℚ) / odds / 100) * 100 := by ring
    _ ≤ (⌈(budget : ℚ) / odds / 100⌉ : ℚ) * 100 :=
        mul_le_mul_of_nonneg_right hceil (by norm_num)
  calc (budget : ℚ) = (budget : ℚ) / odds * odds := (div_mul_cancel₀ _ (ne_of_gt ho)).symm
  _ ≤ (bet_amount budget odds : ℚ) * odds := mul_le_mul_of_nonneg_right h1 (le_of_lt ho)

lemma bet_amount_lt (budget : ℤ) (odds : ℚ) (hb : 0 < budget) (ho : 0 < odds) :
    (bet_amount budget odds : ℚ) < (budget : ℚ) / odds + 100 := by
  rw [bet_amount_eq_ceil budget odds hb ho]
  push_cast
  have hceil := Int.ceil_lt_add_one ((budget : ℚ) / odds / 100)
  calc (⌈(budget : ℚ) / odds / 100⌉ : ℚ) * 100
      < ((budget : ℚ) / odds / 100 + 1) * 100 :=
        mul_lt_mul_of_pos_right hceil (by norm_num)
  _ = (budget : ℚ) / odds + 100 := by ring

lemma cast_sum_int (l : List ℤ) :
    ((l.sum : ℤ) : ℚ) = (l.map fun z : ℤ => (z : ℚ)).sum := by
  induction l with
  | nil => simp
  | cons a t ih => rw [List.sum_cons, List.map_cons, List.sum_cons, ← ih]; push_cast; ring

lemma sum_div_add_const (b : ℚ) (S : List HorseEV) :
    (S.map fun h => b / h.horse.odds_win + 100).sum
      = b * inv_sum_of S + 100 * (S.length : ℚ) := by
  unfold inv_sum_of
  induction S with
  | nil => simp
  | cons h t ih =>
    rw [List.map_cons, List.sum_cons, ih, List.map_cons, List.sum_cons, List.length_cons]
    push_cast
    ring

lemma total_bet_le_budget_of (budget : ℤ) (hb : 0 < budget) (S : List HorseEV)
    (hodds : ∀ h ∈ S, 1 < h.horse.odds_win)
    (hinv : inv_sum_of S + (S.length : ℚ) * 100 / (budget : ℚ) ≤ 1) :
    (S.map fun h => bet_amount budget h.horse.odds_win).sum ≤ budget := by
  have hbq : (0 : ℚ) < (budget : ℚ) := by exact_mod_cast hb
  have hq : (((S.map fun h => bet_amount budget h.horse.odds_win).sum : ℤ) : ℚ)
      ≤ (budget : ℚ) := by
    rw [cast_sum_int, List.map_map]
    have step1 : (S.map ((fun z : ℤ => (z : ℚ)) ∘ fun h => bet_amount budget h.horse.odds_win)).sum
        ≤ (S.map fun h => (budget : ℚ) / h.horse.odds_win + 100).sum := by
      apply List.sum_le_sum
      intro h hm
      exact le_of_lt (bet_amount_lt budget _ hb (lt_trans one_pos (hodds h hm)))
    refine le_trans step1 ?_
    rw [sum_div_add_const]
    have hmul : (budget : ℚ) * inv_sum_of S
        ≤ (budget : ℚ) * (1 - (S.length : ℚ) * 100 / (budget : ℚ)) :=
      mul_le_mul_of_nonneg_left (by linarith [hinv]) (le_of_lt hbq)
    have hbne : (budget : ℚ) ≠ 0 := ne_of_gt hbq
    calc (budget : ℚ) * inv_sum_of S + 100 * (S.length : ℚ)
        ≤ (budget : ℚ) * (1 - (S.length : ℚ) * 100 / (budget : ℚ))
          + 100 * (S.length : ℚ) := by linarith [hmul]
    _ = (budget : ℚ) := by field_simp; ring
  exact_mod_cast hq

lemma le_pyRound_of_le (n : ℤ) (q : ℚ) (h : (n : ℚ) ≤ q) : n ≤ pyRound q := by
  have hfl : n ≤ ⌊q⌋ := Int.le_floor.mpr h
  unfold pyRound
  split_ifs <;> omega

lemma le_foldl_min (b : ℤ) :
    ∀ (xs : List ℤ) (x : ℤ), b ≤ x → (∀ y ∈ xs, b ≤ y) → b ≤ xs.foldl min x := by
  intro xs
  induction xs with
  | nil => intro x hx _; exact hx
  | cons y ys ih =>
    intro x hx hys
    rw [List.foldl_cons]
    exact ih (min x y) (le_min hx (hys y (List.mem_cons_self _ _)))
      fun z hz => hys z (List.mem_cons_of_mem _ hz)

lemma le_min_list (b : ℤ) (l : List ℤ) (hne : l ≠ []) (h : ∀ x ∈ l, b ≤ x) :
    b ≤ min_list l := by
  cases l with
  | nil => exact absurd rfl hne
  | cons x xs =>
    exact le_foldl_min b xs x (h x (List.mem_cons_self _ _))
      fun y hy => h y (List.mem_cons_of_mem _ hy)

lemma sorted_for_mem (horses : List Horse) :
    ∀ h ∈ sorted_for horses, h ∈ valid_for horses := by
  intro h hm
  unfold sorted_for sort_by_prob at hm
  exact (List.mem_insertionSort prob_desc).mp hm

lemma valid_for_odds (horses : List Horse) :
    ∀ h ∈ valid_for horses, 1 < h.horse.odds_win := by
  intro h hm
  unfold valid_for at hm
  exact of_decide_eq_true (List.mem_filter.mp hm).2

lemma selected_for_sub (horses : List Horse) (budget : ℤ) :
    ∀ h ∈ selected_for horses budget, h ∈ valid_for horses := by
  intro h hm
  unfold selected_for at hm
  split_ifs at hm with hs
  · exact sorted_for_mem horses h (List.mem_of_mem_take hm)
  · exact sorted_for_mem horses h ((scan_invariant horses budget).2 h hm)

lemma sorted_for_length (horses : List Horse) :
    (sorted_for horses).length = (valid_for horses).length := by
  unfold sorted_for sort_by_prob
  exact (List.perm_insertionSort prob_desc _).length_eq

lemma selected_for_ne (horses : List Horse) (budget : ℤ) (hv : valid_for horses ≠ []) :
    selected_for horses budget ≠ [] := by
  unfold selected_for
  split_ifs with hs
  · have hlen := sorted_for_length horses
    cases hsrt : sorted_for horses with
    | nil =>
      exfalso
      apply hv
      rw [hsrt] at hlen
      exact List.length_eq_zero.mp hlen.symm
    | cons a t => simp
  · exact hs

lemma optimize_budget_main (horses : List Horse) (budget : ℤ) (hne : horses ≠ [])
    (hb : 0 < budget) (hv : valid_for horses ≠ []) :
    optimize_budget horses budget =
      ⟨bets_for horses budget, total_bet_for horses budget,
        min_list ((bets_for horses budget).map (·.if_wins_return)),
        max 0 (budget - total_bet_for horses budget), coverage_for horses budget⟩ := by
  unfold optimize_budget
  rw [if_neg (by push_neg; exact ⟨hne, hb⟩), if_neg hv]

lemma valid_for_nonempty (horses : List Horse) (hex : ∃ h ∈ horses, 1 < h.odds_win) :
    valid_for horses ≠ [] := by
  obtain ⟨h, hmem, hodds⟩ := hex
  have hv0 : 0 < h.odds_win := lt_trans one_pos hodds
  have hvh : valid_horses horses ≠ [] :=
    List.ne_nil_of_mem (List.mem_filter.mpr ⟨hmem, decide_eq_true hv0⟩)
  have hcev : blend_entry (total_inv_odds horses) (total_form horses)
      (work_entry (global_3f_avg horses) h) ∈ calculate_expected_values horses := by
    unfold calculate_expected_values
    rw [if_neg (List.ne_nil_of_mem hmem), if_neg hvh]
    refine List.mem_map_of_mem _ ?_
    unfold work_of
    exact List.mem_map_of_mem _ hmem
  apply List.ne_nil_of_mem (a := blend_entry (total_inv_odds horses) (total_form horses)
    (work_entry (global_3f_avg horses) h))
  unfold valid_for
  refine List.mem_filter.mpr ⟨hcev, ?_⟩
  rw [blend_entry_horse, work_entry_horse]
  exact decide_eq_true hodds

lemma total_bet_for_eq (horses : List Horse) (budget : ℤ) :
    total_bet_for horses budget
      = ((selected_for horses budget).map fun h => bet_amount budget h.horse.odds_win).sum := by
  unfold total_bet_for bets_for
  rw [List.map_map]
  rfl

/-- C1 amended: with at least one eligible entrant and a positive budget, the
covering allocation always satisfies `guaranteed_return >= budget`,
`total_bet >= 0` and `remaining_budget >= 0`; and whenever the greedy scan
admitted at least one entrant (the selection is not the forced single pick),
additionally `budget >= total_bet` and
`remaining_budget = budget - total_bet`. -/
theorem covering_allocation_guarantees (horses : List Horse) (budget : ℤ)
    (hb : 0 < budget) (hex : ∃ h ∈ horses, 1 < h.odds_win) :
    budget ≤ (optimize_budget horses budget).guaranteed_return ∧
    0 ≤ (optimize_budget horses budget).total_bet ∧
    0 ≤ (optimize_budget horses budget).remaining_budget ∧
    ((scan_for horses budget).1 ≠ [] →
      (optimize_budget horses budget).total_bet ≤ budget ∧
      (optimize_budget horses budget).remaining_budget
        = budget - (optimize_budget horses budget).total_bet) := by
  have hne : horses ≠ [] := by
    obtain ⟨h, hm, _⟩ := hex
    exact List.ne_nil_of_mem hm
  have hv := valid_for_nonempty horses hex
  rw [optimize_budget_main horses budget hne hb hv]
  have hselne := selected_for_ne horses budget hv
  have hodds1 : ∀ h ∈ selected_for horses budget, 1 < h.horse.odds_win :=
    fun h hm => valid_for_odds horses h (selected_for_sub horses budget h hm)
  refine ⟨?_, ?_, ?_, ?_⟩
  · show budget ≤ min_list ((bets_for horses budget).map (·.if_wins_return))
    apply le_min_list
    · unfold bets_for
      intro hmap
      rw [List.map_eq_nil_iff, List.map_eq_nil_iff] at hmap
      exact hselne hmap
    · intro x hx
      obtain ⟨b, hbm, rfl⟩ := List.mem_map.mp hx
      unfold bets_for at hbm
      obtain ⟨h, hm, rfl⟩ := List.mem_map.mp hbm
      show budget ≤ pyRound ((bet_amount budget h.horse.odds_win : ℚ) * h.horse.odds_win)
      exact le_pyRound_of_le _ _
        (bet_amount_mul_ge budget _ (lt_trans one_pos (hodds1 h hm)))
  · show (0 : ℤ) ≤ total_bet_for horses budget
    unfold total_bet_for
    apply List.sum_nonneg
    intro x hx
    obtain ⟨b, hbm, rfl⟩ := List.mem_map.mp hx
    unfold bets_for at hbm
    obtain ⟨h, hm, rfl⟩ := List.mem_map.mp hbm
    show (0 : ℤ) ≤ bet_amount budget h.horse.odds_win
    exact le_trans (by norm_num) (bet_amount_ge_100 _ _)
  · show (0 : ℤ) ≤ max 0 (budget - total_bet_for horses budget)
    exact le_max_left _ _
  · intro hscan
    have hsel_eq : selected_for horses budget = (scan_for horses budget).1 := by
      unfold selected_for
      rw [if_neg hscan]
    have htot : total_bet_for horses budget ≤ budget := by
      rw [total_bet_for_eq, hsel_eq]
      apply total_bet_le_budget_of budget hb
      · intro h hm
        exact hodds1 h (hsel_eq ▸ hm)
      · exact (scan_invariant horses budget).1 hscan
    exact ⟨htot, max_eq_right (by omega)⟩

/-- Counterexample to C1 as stated: one eligible entrant with odds 1.2 and
budget 150 (the forced-selection branch) stakes 200 > 150, so
`budget >= total_bet` and `remaining_budget = budget − total_bet` both fail. -/
theorem covering_allocation_guarantees_counterexample :
    (∃ h ∈ [({ horse_id := "x", odds_win := 6 / 5 } : Horse)], 1 < h.odds_win) ∧
    (0 : ℤ) < 150 ∧
    (optimize_budget [({ horse_id := "x", odds_win := 6 / 5 } : Horse)] 150).total_bet = 200 ∧
    ¬ ((150 : ℤ) ≥
        (optimize_budget [({ horse_id := "x", odds_win := 6 / 5 } : Horse)] 150).total_bet ∧
      (optimize_budget [({ horse_id := "x", odds_win := 6 / 5 } : Horse)] 150).remaining_budget
        = 150 - (optimize_budget [({ horse_id := "x", odds_win := 6 / 5 } : Horse)]
            150).total_bet) := by
  with_unfolding_all decide

/-- Witness for the amended C1 at the spec §8 demo field. -/
theorem covering_allocation_guarantees_witness :
    (0 : ℤ) < 1000 ∧ (∃ h ∈ demoHorses, 1 < h.odds_win) ∧
    (scan_for demoHorses 1000).1 ≠ [] ∧
    (1000 ≤ (optimize_budget demoHorses 1000).guaranteed_return ∧
      0 ≤ (optimize_budget demoHorses 1000).total_bet ∧
      0 ≤ (optimize_budget demoHorses 1000).remaining_budget ∧
      (optimize_budget demoHorses 1000).total_bet ≤ 1000 ∧
      (optimize_budget demoHorses 1000).remaining_budget
        = 1000 - (optimize_budget demoHorses 1000).total_bet) := by
  have hscan : (scan_for demoHorses 1000).1 ≠ [] := by with_unfolding_all decide
  have hmain := covering_allocation_guarantees demoHorses 1000 (by norm_num)
    (by with_unfolding_all decide)
  exact ⟨by norm_num, by with_unfolding_all decide, hscan,
    hmain.1, hmain.2.1, hmain.2.2.1, (hmain.2.2.2 hscan).1, (hmain.2.2.2 hscan).2⟩

/-- C6: every emitted bet stakes exactly
`max(100, ceil(budget / odds_win / 100) × 100)`, and that stake individually
returns at least the budget: `recommended_bet × odds_win >= budget`. -/
theorem covering_stake_formula (horses : List Horse) (budget : ℤ) (b : Bet)
    (hmem : b ∈ (optimize_budget horses budget).bets) :
    b.recommended_bet = max 100 (⌈(budget : ℚ) / b.odds_win / 100⌉ * 100) ∧
    (budget : ℚ) ≤ (b.recommended_bet : ℚ) * b.odds_win := by
  unfold optimize_budget at hmem
  split_ifs at hmem with h1 h2
  · simp at hmem
  · simp at hmem
  · push_neg at h1
    change b ∈ bets_for horses budget at hmem
    unfold bets_for at hmem
    obtain ⟨h, hm, rfl⟩ := List.mem_map.mp hmem
    have hodds : 1 < h.horse.odds_win :=
      valid_for_odds horses h (selected_for_sub horses budget h hm)
    exact ⟨rfl, bet_amount_mul_ge budget _ (lt_trans one_pos hodds)⟩

set_option maxRecDepth 8000 in
/-- Witness for C6: the single bet of a one-entrant field with odds 2 and
budget 100. -/
theorem covering_stake_formula_witness :
    (⟨"", "", 100, 200, 200, 2, 1⟩ : Bet)
        ∈ (optimize_budget [({ odds_win := 2 } : Horse)] 100).bets ∧
    ((⟨"", "", 100, 200, 200, 2, 1⟩ : Bet).recommended_bet
        = max 100 (⌈(100 : ℚ) / (⟨"", "", 100, 200, 200, 2, 1⟩ : Bet).odds_win / 100⌉ * 100) ∧
      ((100 : ℤ) : ℚ) ≤ ((⟨"", "", 100, 200, 200, 2, 1⟩ : Bet).recommended_bet : ℚ)
          * (⟨"", "", 100, 200, 200, 2, 1⟩ : Bet).odds_win) :=
  ⟨by with_unfolding_all decide,
    covering_stake_formula [({ odds_win := 2 } : Horse)] 100 _
      (by with_unfolding_all decide)⟩

/-! ### C5: the selection procedure, stated from the claim's words -/

lemma sorted_for_sorted (horses : List Horse) :
    List.Sorted prob_desc (sorted_for horses) := by
  unfold sorted_for sort_by_prob
  exact List.sorted_insertionSort prob_desc _

/-- Stated from the claim's words (C5): one step of the scan over the sorted
list, carrying the admitted list, the count `k` of admitted entrants and the
running `inv_sum`; a candidate is admitted iff
`inv_sum + 1/odds_win + (k+1)*100/budget <= 1`, and rejection does not stop
the scan. -/
def claim_step (budget : ℤ) (acc : List HorseEV × ℕ × ℚ) (c : HorseEV) :
    List HorseEV × ℕ × ℚ :=
  if acc.2.2 + 1 / c.horse.odds_win + ((acc.2.1 : ℚ) + 1) * 100 / (budget : ℚ) ≤ 1 then
    (acc.1 ++ [c], acc.2.1 + 1, acc.2.2 + 1 / c.horse.odds_win)
  else acc

/-- Stated from the claim's words (C5): scan the whole sorted list starting
from the empty selection. -/
def claim_scan (budget : ℤ) (l : List HorseEV) : List HorseEV × ℕ × ℚ :=
  l.foldl (claim_step budget) ([], 0, 0)

/-- Stated from the claim's words (C5): the selection is the scan's output
over the stable descending sort of the eligible entrants, or the single
highest-probability eligible entrant when the scan admitted nobody. -/
def claim_selection (horses : List Horse) (budget : ℤ) : List HorseEV :=
  if (claim_scan budget (sort_by_prob (valid_for horses))).1 = [] then
    (sort_by_prob (valid_for horses)).take 1
  else (claim_scan budget (sort_by_prob (valid_for horses))).1

lemma claim_scan_go (budget : ℤ) :
    ∀ (l : List HorseEV) (sel : List HorseEV) (inv : ℚ),
      l.foldl (claim_step budget) (sel, sel.length, inv)
        = ((select_go budget l (sel, inv)).1, (select_go budget l (sel, inv)).1.length,
            (select_go budget l (sel, inv)).2) := by
  intro l
  induction l with
  | nil => intro sel inv; simp [select_go]
  | cons c rest ih =>
    intro sel inv
    rw [List.foldl_cons]
    simp only [select_go]
    by_cases hc : inv + 1 / c.horse.odds_win + ((sel.length : ℚ) + 1) * 100 / (budget : ℚ) ≤ 1
    · rw [if_pos hc]
      have hstep : claim_step budget (sel, sel.length, inv) c
          = (sel ++ [c], (sel ++ [c]).length, inv + 1 / c.horse.odds_win) := by
        unfold claim_step
        rw [if_pos hc]
        simp [List.length_append]
      rw [hstep]
      exact ih (sel ++ [c]) (inv + 1 / c.horse.odds_win)
    · rw [if_neg hc]
      have hstep : claim_step budget (sel, sel.length, inv) c = (sel, sel.length, inv) := by
        unfold claim_step
        rw [if_neg hc]
      rw [hstep]
      exact ih sel inv

/-- C5: the covering allocator's selection equals the claim's procedure (stable
descending sort, scan with the stated admission test, fallback to the single
top entrant), and any entrant in the fallback position has maximal win
probability among the eligible entrants. -/
theorem covering_selection_algorithm (horses : List Horse) (budget : ℤ) :
    selected_for horses budget = claim_selection horses budget ∧
    (∀ x ∈ (sorted_for horses).take 1, ∀ h ∈ valid_for horses,
      h.win_probability ≤ x.win_probability) := by
  constructor
  · have hs : claim_scan budget (sort_by_prob (valid_for horses))
        = ((select_go budget (sort_by_prob (valid_for horses)) ([], 0)).1,
          (select_go budget (sort_by_prob (valid_for horses)) ([], 0)).1.length,
          (select_go budget (sort_by_prob (valid_for horses)) ([], 0)).2) :=
      claim_scan_go budget (sort_by_prob (valid_for horses)) [] 0
    unfold selected_for claim_selection scan_for sorted_for
    rw [hs]
  · intro x hx h hm
    have hsorted := sorted_for_sorted horses
    have hmem : h ∈ sorted_for horses := by
      unfold sorted_for sort_by_prob
      exact (List.mem_insertionSort prob_desc).mpr hm
    cases hsrt : sorted_for horses with
    | nil =>
      rw [hsrt] at hx
      simp at hx
    | cons a t =>
      rw [hsrt] at hx hmem hsorted
      have hxa : x = a := by
        simpa using hx
      subst hxa
      rcases List.mem_cons.mp hmem with heq | hmemt
      · rw [heq]
      · exact List.rel_of_sorted_cons hsorted h hmemt

set_option maxRecDepth 8000 in
/-- Witness for C5 at a two-entrant field with odds 2 and 4. -/
theorem covering_selection_algorithm_witness :
    selected_for [({ odds_win := 2 } : Horse), { odds_win := 4 }] 1000
      = claim_selection [({ odds_win := 2 } : Horse), { odds_win := 4 }] 1000 ∧
    (⟨{ odds_win := 2 }, 3 / 5, 1 / 5⟩ : HorseEV)
      ∈ (sorted_for [({ odds_win := 2 } : Horse), { odds_win := 4 }]).take 1 ∧
    (⟨{ odds_win := 4 }, 2 / 5, 3 / 5⟩ : HorseEV)
      ∈ valid_for [({ odds_win := 2 } : Horse), { odds_win := 4 }] ∧
    (⟨{ odds_win := 4 }, 2 / 5, 3 / 5⟩ : HorseEV).win_probability
      ≤ (⟨{ odds_win := 2 }, 3 / 5, 1 / 5⟩ : HorseEV).win_probability :=
  ⟨(covering_selection_algorithm [({ odds_win := 2 } : Horse), { odds_win := 4 }] 1000).1,
    by with_unfolding_all decide,
    by with_unfolding_all decide,
    (covering_selection_algorithm [({ odds_win := 2 } : Horse), { odds_win := 4 }] 1000).2
      _ (by with_unfolding_all decide) _ (by with_unfolding_all decide)⟩

/-! ### C4: the Kelly Allocator, modelled from the spec -/

/-- One per-entrant output of the Kelly Allocator. -/
structure KellyBet where
  horse : Horse
  kelly_fraction : ℚ
  recommended_bet : ℤ
deriving Repr, DecidableEq

/-- Modelled from the spec: the Kelly Allocator (spec §4.3) is not present in
the repository sources under src/ (only the covering allocator is); per
entrant `b = odds_win − 1`; if `b <= 0` the Kelly fraction is 0, else
`f = (b·p − (1−p)) / b` floored at 0. -/
def kelly_fraction_raw (odds p : ℚ) : ℚ :=
  if odds - 1 ≤ 0 then 0 else max 0 (((odds - 1) * p - (1 - p)) / (odds - 1))

/-- Modelled from the spec: the fixed 0.5 "half-Kelly" safety scaling
(spec §4.3). -/
def half_kelly (odds p : ℚ) : ℚ := (1 / 2) * kelly_fraction_raw odds p

/-- Modelled from the spec: the normalizer — the sum of the positive
half-Kelly fractions (spec §4.3 "normalize `half_kelly` across all entrants
with a positive value"). -/
def kelly_total (entrants : List HorseEV) : ℚ :=
  ((entrants.map fun e => half_kelly e.horse.odds_win e.win_probability).filter
    fun f => 0 < f).sum

/-- Modelled from the spec: one output row — entrants with positive half-Kelly
get `floor(budget × share)`, the rest stake 0 (spec §4.3). -/
def kelly_bet_entry (T : ℚ) (budget : ℤ) (e : HorseEV) : KellyBet :=
  if 0 < half_kelly e.horse.odds_win e.win_probability then
    ⟨e.horse, half_kelly e.horse.odds_win e.win_probability,
      ⌊(budget : ℚ) * (half_kelly e.horse.odds_win e.win_probability / T)⌋⟩
  else ⟨e.horse, half_kelly e.horse.odds_win e.win_probability, 0⟩

/-- Modelled from the spec: the Kelly Allocator
`allocate(entrants_with_probability, budget)` (spec §4.3). -/
def kelly_allocate (entrants : List HorseEV) (budget : ℤ) : List KellyBet :=
  entrants.map (kelly_bet_entry (kelly_total entrants) budget)

lemma kelly_fraction_raw_nonneg (odds p : ℚ) : 0 ≤ kelly_fraction_raw odds p := by
  unfold kelly_fraction_raw
  split_ifs
  · exact le_refl 0
  · exact le_max_left 0 _

lemma half_kelly_nonneg (odds p : ℚ) : 0 ≤ half_kelly odds p :=
  mul_nonneg (by norm_num) (kelly_fraction_raw_nonneg odds p)

lemma kelly_total_ge (entrants : List HorseEV) (e : HorseEV) (he : e ∈ entrants)
    (hf : 0 < half_kelly e.horse.odds_win e.win_probability) :
    half_kelly e.horse.odds_win e.win_probability ≤ kelly_total entrants := by
  unfold kelly_total
  apply List.single_le_sum
  · intro x hx
    exact le_of_lt (of_decide_eq_true (List.mem_filter.mp hx).2)
  · exact List.mem_filter.mpr ⟨List.mem_map_of_mem _ he, decide_eq_true hf⟩

lemma sum_if_pos_eq_filter (l : List ℚ) :
    (l.map fun f => if 0 < f then f else 0).sum = (l.filter fun f => 0 < f).sum := by
  induction l with
  | nil => simp
  | cons a t ih =>
    by_cases ha : 0 < a
    · rw [List.map_cons, List.sum_cons, if_pos ha, List.filter_cons,
        if_pos (decide_eq_true ha), List.sum_cons, ih]
    · rw [List.map_cons, List.sum_cons, if_neg ha, List.filter_cons,
        if_neg (by simpa using ha), ih, zero_add]

lemma sum_mul_div (b T : ℚ) (g : HorseEV → ℚ) (l : List HorseEV) :
    (l.map fun e => b * g e / T).sum = b * (l.map g).sum / T := by
  induction l with
  | nil => simp
  | cons e t ih =>
    rw [List.map_cons, List.sum_cons, ih, List.map_cons, List.sum_cons]
    ring

lemma kelly_bet_entry_bet_le (T : ℚ) (budget : ℤ) (e : HorseEV) :
    ((kelly_bet_entry T budget e).recommended_bet : ℚ)
      ≤ (budget : ℚ) * (if 0 < half_kelly e.horse.odds_win e.win_probability
          then half_kelly e.horse.odds_win e.win_probability else 0) / T := by
  unfold kelly_bet_entry
  split_ifs with hf
  · show ((⌊(budget : ℚ) * (half_kelly e.horse.odds_win e.win_probability / T)⌋ : ℤ) : ℚ) ≤ _
    rw [mul_div_assoc]
    exact Int.floor_le _
  · show ((0 : ℤ) : ℚ) ≤ (budget : ℚ) * 0 / T
    simp

lemma kelly_sum_le (entrants : List HorseEV) (budget : ℤ) (hb : 0 ≤ budget) :
    ((kelly_allocate entrants budget).map (·.recommended_bet)).sum ≤ budget := by
  by_cases hT : 0 < kelly_total entrants
  · have hq : ((((kelly_allocate entrants budget).map (·.recommended_bet)).sum : ℤ) : ℚ)
        ≤ (budget : ℚ) := by
      rw [cast_sum_int]
      unfold kelly_allocate
      rw [List.map_map, List.map_map]
      have step1 : (entrants.map ((fun z : ℤ => (z : ℚ)) ∘ (fun kb => kb.recommended_bet)
            ∘ kelly_bet_entry (kelly_total entrants) budget)).sum
          ≤ (entrants.map fun e => (budget : ℚ)
              * (if 0 < half_kelly e.horse.odds_win e.win_probability
                then half_kelly e.horse.odds_win e.win_probability else 0)
              / kelly_total entrants).sum := by
        apply List.sum_le_sum
        intro e _
        exact kelly_bet_entry_bet_le (kelly_total entrants) budget e
      refine le_trans step1 ?_
      rw [sum_mul_div]
      have hsum : (entrants.map fun e =>
          if 0 < half_kelly e.horse.odds_win e.win_probability
            then half_kelly e.horse.odds_win e.win_probability else 0).sum
          = kelly_total entrants := by
        have hmm : (entrants.map fun e =>
            if 0 < half_kelly e.horse.odds_win e.win_probability
              then half_kelly e.horse.odds_win e.win_probability else 0)
            = ((entrants.map fun e => half_kelly e.horse.odds_win e.win_probability).map
                fun f => if 0 < f then f else 0) := by
          rw [List.map_map]
          rfl
        rw [hmm, sum_if_pos_eq_filter]
        rfl
      rw [hsum, mul_div_assoc, div_self (ne_of_gt hT), mul_one]
    exact_mod_cast hq
  · have hall : ∀ x ∈ (kelly_allocate entrants budget).map (·.recommended_bet), x = 0 := by
      intro x hx
      obtain ⟨kb, hkb, rfl⟩ := List.mem_map.mp hx
      unfold kelly_allocate at hkb
      obtain ⟨e, he, rfl⟩ := List.mem_map.mp hkb
      unfold kelly_bet_entry
      split_ifs with hf
      · exact absurd (lt_of_lt_of_le hf (kelly_total_ge entrants e he hf)) hT
      · rfl
    rw [List.sum_eq_zero hall]
    exact hb

/-- C4: the Kelly Allocator computes `b = odds_win − 1` and floors negative
Kelly fractions at 0 with the 0.5 scaling, every output `kelly_fraction` is
non-negative, the stakes never sum above the budget, and with no positive
Kelly fraction every stake is 0. -/
theorem kelly_allocator_guarantees (entrants : List HorseEV) (budget : ℤ)
    (hb : 0 ≤ budget) :
    (∀ odds p : ℚ, kelly_fraction_raw odds p
        = if odds - 1 ≤ 0 then 0 else max 0 (((odds - 1) * p - (1 - p)) / (odds - 1))) ∧
    (∀ kb ∈ kelly_allocate entrants budget, 0 ≤ kb.kelly_fraction) ∧
    ((kelly_allocate entrants budget).map (·.recommended_bet)).sum ≤ budget ∧
    ((∀ e ∈ entrants, kelly_fraction_raw e.horse.odds_win e.win_probability ≤ 0) →
      ∀ kb ∈ kelly_allocate entrants budget, kb.recommended_bet = 0) := by
  refine ⟨fun odds p => rfl, ?_, kelly_sum_le entrants budget hb, ?_⟩
  · intro kb hkb
    unfold kelly_allocate at hkb
    obtain ⟨e, he, rfl⟩ := List.mem_map.mp hkb
    unfold kelly_bet_entry
    split_ifs with hf
    · exact half_kelly_nonneg _ _
    · exact half_kelly_nonneg _ _
  · intro hall kb hkb
    unfold kelly_allocate at hkb
    obtain ⟨e, he, rfl⟩ := List.mem_map.mp hkb
    unfold kelly_bet_entry
    have hf : ¬ 0 < half_kelly e.horse.odds_win e.win_probability := by
      have hraw := hall e he
      unfold half_kelly
      intro hpos
      linarith
    rw [if_neg hf]

/-- Witness for C4 at a one-entrant list with a positive Kelly fraction. -/
theorem kelly_allocator_guarantees_witness :
    (0 : ℤ) ≤ 1000 ∧
    (∀ kb ∈ kelly_allocate [(⟨{ odds_win := 3 }, 1 / 2, 1 / 2⟩ : HorseEV)] 1000,
      0 ≤ kb.kelly_fraction) ∧
    ((kelly_allocate [(⟨{ odds_win := 3 }, 1 / 2, 1 / 2⟩ : HorseEV)] 1000).map
      (·.recommended_bet)).sum ≤ 1000 :=
  ⟨by norm_num,
    (kelly_allocator_guarantees [(⟨{ odds_win := 3 }, 1 / 2, 1 / 2⟩ : HorseEV)] 1000
      (by norm_num)).2.1,
    (kelly_allocator_guarantees [(⟨{ odds_win := 3 }, 1 / 2, 1 / 2⟩ : HorseEV)] 1000
      (by norm_num)).2.2.1⟩

/-! ### C9: the last-closing-segment factor -/

/-- Stated from the claim's words (C9): the field-wide average of per-entrant
`last_3f` averages "across all entrants with such data" — including entrants
with non-positive odds. -/
def claim_all_3f_avgs (horses : List Horse) : List ℚ :=
  horses.filterMap fun h =>
    if 0 < avg_last_3f h.race_history then some (avg_last_3f h.race_history) else none

/-- Stated from the claim's words (C9): the field average over all entrants
with data (0 when no entrant has data, i.e. unavailable). -/
def claim_field_3f_avg (horses : List Horse) : ℚ :=
  if claim_all_3f_avgs horses = [] then 0
  else (claim_all_3f_avgs horses).sum / ((claim_all_3f_avgs horses).length : ℚ)

/-- Stated from the claim's words (C9): the factor
`1.0 + (field_avg − horse_avg) × 0.024` clamped to `[0.88, 1.12]`, 1.00 when
either average is unavailable, with the field average over ALL entrants. -/
def claim_last3f_factor (horses : List Horse) (h : Horse) : ℚ :=
  if claim_field_3f_avg horses ≤ 0 ∨ avg_last_3f h.race_history ≤ 0 then 1
  else max (88 / 100) (min (112 / 100)
    (1 + (claim_field_3f_avg horses - avg_last_3f h.race_history) * (24 / 1000)))

/-- The last-3F factor the code actually applies to entrant `h` of the field:
`_last3f_factor(history, global_3f_avg)` with the global average taken over
the VALID entrants only (expected_value.py lines 77-81, 101). -/
def last3f_factor_used (horses : List Horse) (h : Horse) : ℚ :=
  last3f_factor h.race_history (global_3f_avg horses)

/-- Counterexample to C9 as stated: with a valid entrant (odds 2, last_3f 34)
and an invalid entrant (odds 0, last_3f 38), the code's field average uses
only the valid entrant (34), giving factor 1.00, while the claim's "all
entrants" average is 36, giving factor 1.048. -/
theorem last3f_factor_counterexample :
    last3f_factor_used
        [({ odds_win := 2, race_history := [{ last_3f := 34 }] } : Horse),
          { odds_win := 0, race_history := [{ last_3f := 38 }] }]
        { odds_win := 2, race_history := [{ last_3f := 34 }] } = 1 ∧
    claim_last3f_factor
        [({ odds_win := 2, race_history := [{ last_3f := 34 }] } : Horse),
          { odds_win := 0, race_history := [{ last_3f := 38 }] }]
        { odds_win := 2, race_history := [{ last_3f := 34 }] } = 131 / 125 ∧
    ¬ (last3f_factor_used
        [({ odds_win := 2, race_history := [{ last_3f := 34 }] } : Horse),
          { odds_win := 0, race_history := [{ last_3f := 38 }] }]
        { odds_win := 2, race_history := [{ last_3f := 34 }] }
      = claim_last3f_factor
        [({ odds_win := 2, race_history := [{ last_3f := 34 }] } : Horse),
          { odds_win := 0, race_history := [{ last_3f := 38 }] }]
        { odds_win := 2, race_history := [{ last_3f := 34 }] }) := by
  with_unfolding_all decide

/-- Stated from the amended claim's words (C9 amended): the per-entrant
averages of the VALID entrants (odds_win > 0) with data. -/
def claim_valid_3f_avgs (horses : List Horse) : List ℚ :=
  (valid_horses horses).filterMap fun h =>
    if 0 < avg_last_3f h.race_history then some (avg_last_3f h.race_history) else none

/-- Stated from the amended claim's words (C9 amended): the field average over
the valid entrants with data. -/
def claim_valid_field_3f_avg (horses : List Horse) : ℚ :=
  if claim_valid_3f_avgs horses = [] then 0
  else (claim_valid_3f_avgs horses).sum / ((claim_valid_3f_avgs horses).length : ℚ)

/-- Stated from the amended claim's words (C9 amended): the clamped factor with
the field average over the valid entrants. -/
def claim_last3f_factor_valid (horses : List Horse) (h : Horse) : ℚ :=
  if claim_valid_field_3f_avg horses ≤ 0 ∨ avg_last_3f h.race_history ≤ 0 then 1
  else max (88 / 100) (min (112 / 100)
    (1 + (claim_valid_field_3f_avg horses - avg_last_3f h.race_history) * (24 / 1000)))

/-- C9 amended: the factor the code applies equals
`1.0 + (field_avg − horse_avg) × 0.024` clamped to `[0.88, 1.12]` with the
field average taken across the valid entrants with data, and 1.00 when either
average is unavailable. -/
theorem last3f_factor_formula (horses : List Horse) (h : Horse) :
    last3f_factor_used horses h = claim_last3f_factor_valid horses h := by
  have heq : claim_valid_field_3f_avg horses = global_3f_avg horses := rfl
  unfold last3f_factor_used last3f_factor claim_last3f_factor_valid
  rw [heq]
  by_cases h1 : global_3f_avg horses ≤ 0 <;> by_cases h2 : avg_last_3f h.race_history ≤ 0 <;>
    simp [h1, h2]

end Keiba
